import Mathlib

/-!
Verification development for the a-memory-library repository (aml_buffer /
aml_pool).  The C sources are shallowly embedded: buffers are modelled as a
record of a byte list (the allocated storage), a logical length, a capacity
and a backing flag; pools as a record of block capacities and counters.
Machine `size_t` values are modelled as `Nat` (no operation here can
overflow 64 bits on reachable states), bytes as `Nat` values below 256.
Freshly allocated, uninitialized storage is modelled by an explicit junk
byte supplied by each allocating operation, so theorems quantify over its
value.
-/

namespace Aml

/-- Storage write of a byte list `bs` into list `l` starting at index `i`
(models memcpy / memset into a buffer).  Within bounds it preserves the
storage length. -/
def listWrite (l : List Nat) (i : Nat) (bs : List Nat) : List Nat :=
  l.take i ++ bs ++ l.drop (i + bs.length)

/-- Buffer handle, from struct aml_buffer_s: `data` is the allocated
storage (modelled byte-for-byte, including the terminator slot), `length`
the logical length, `size` the capacity, `pool` true when Region-backed
(h->pool non-null). -/
structure AmlBuffer where
  data : List Nat
  length : Nat
  size : Nat
  pool : Bool
deriving Repr, DecidableEq

/-- From _aml_buffer_grow: new capacity `(length + 50) + (h->size >> 3)`,
fresh storage of capacity + 1 bytes; the heap path copies `h->length + 1`
bytes (content plus terminator), the pool path copies them only when
`h->length` is nonzero.  `junk` models the uninitialized tail of the fresh
allocation. -/
def _aml_buffer_grow (h : AmlBuffer) (length junk : Nat) : AmlBuffer :=
  let len := (length + 50) + (h.size >>> 3)
  let newdata :=
    if h.pool = false then
      h.data.take (h.length + 1) ++ List.replicate (len + 1 - (h.length + 1)) junk
    else if h.length ≠ 0 then
      h.data.take (h.length + 1) ++ List.replicate (len + 1 - (h.length + 1)) junk
    else
      List.replicate (len + 1) junk
  { h with data := newdata, size := len }

/-- From _aml_buffer_alloc: same capacity formula as _aml_buffer_grow but
the fresh storage is not initialized from the old content at all. -/
def _aml_buffer_alloc (h : AmlBuffer) (length junk : Nat) : AmlBuffer :=
  let len := (length + 50) + (h.size >>> 3)
  { h with data := List.replicate (len + 1) junk, size := len }

/-- From aml_buffer_resize: grow when `length > h->size`, set the logical
length, write the terminator. -/
def aml_buffer_resize (h : AmlBuffer) (length junk : Nat) : AmlBuffer :=
  let h := if h.size < length then _aml_buffer_grow h length junk else h
  { h with length := length, data := h.data.set length 0 }

/-- From aml_buffer_alloc: grow via _aml_buffer_alloc (discarding content)
when `length > h->size`, set the length, write the terminator. -/
def aml_buffer_alloc (h : AmlBuffer) (length junk : Nat) : AmlBuffer :=
  let h := if h.size < length then _aml_buffer_alloc h length junk else h
  { h with length := length, data := h.data.set length 0 }

/-- From _aml_buffer_set: grow via _aml_buffer_alloc if needed, copy the
bytes to offset 0, set length, write the terminator. -/
def _aml_buffer_set (h : AmlBuffer) (bs : List Nat) (junk : Nat) : AmlBuffer :=
  let h := if h.size < bs.length then _aml_buffer_alloc h bs.length junk else h
  { h with data := (listWrite h.data 0 bs).set bs.length 0, length := bs.length }

/-- Modelled from the spec: the out-of-line _aml_buffer_append core lives in
src/aml_buffer.c which is not part of the provided sources; per the spec,
append operations grow-if-needed, preserve all prior bytes and append at the
current length (the NUL-termination invariant then demands the terminator
write). -/
def _aml_buffer_append (h : AmlBuffer) (bs : List Nat) (junk : Nat) : AmlBuffer :=
  let h := if h.size < h.length + bs.length then _aml_buffer_grow h (h.length + bs.length) junk else h
  { h with data := (listWrite h.data h.length bs).set (h.length + bs.length) 0,
           length := h.length + bs.length }

/-- From aml_buffer_appendc: grow when `h->length + 1 > h->size`, write the
character and a terminator, bump the length. -/
def aml_buffer_appendc (h : AmlBuffer) (c junk : Nat) : AmlBuffer :=
  let h := if h.size < h.length + 1 then _aml_buffer_grow h (h.length + 1) junk else h
  { h with data := (h.data.set h.length c).set (h.length + 1) 0,
           length := h.length + 1 }

/-- From aml_buffer_appendn: no-op for `n <= 0` (ssize_t count), otherwise
grow if needed, memset `n` copies of the byte, terminate, bump length. -/
def aml_buffer_appendn (h : AmlBuffer) (c : Nat) (n : Int) (junk : Nat) : AmlBuffer :=
  if n ≤ 0 then h
  else
    let m := n.toNat
    let h := if h.size < h.length + m then _aml_buffer_grow h (h.length + m) junk else h
    { h with data := (listWrite h.data h.length (List.replicate m c)).set (h.length + m) 0,
             length := h.length + m }

/-- From aml_buffer_append_ualloc: grow if needed, reserve `n` bytes at the
current length (contents left as-is), write a terminator after the span. -/
def aml_buffer_append_ualloc (h : AmlBuffer) (n junk : Nat) : AmlBuffer :=
  let h := if h.size < h.length + n then _aml_buffer_grow h (h.length + n) junk else h
  { h with data := h.data.set (h.length + n) 0, length := h.length + n }

/-- From aml_buffer_append_alloc: when the length is not a multiple of 8,
first reserve `8 - length % 8` pad bytes (the padding statements of the
source are exactly the body of aml_buffer_append_ualloc applied to the pad
count), then reserve the requested `n` bytes the same way. -/
def aml_buffer_append_alloc (h : AmlBuffer) (n junk : Nat) : AmlBuffer :=
  let m := h.length % 8
  let h := if 0 < m then aml_buffer_append_ualloc h (8 - m) junk else h
  aml_buffer_append_ualloc h n junk

/-- From aml_buffer_clear: length to 0, terminator rewritten at index 0. -/
def aml_buffer_clear (h : AmlBuffer) : AmlBuffer :=
  { h with length := 0, data := h.data.set 0 0 }

/-- From aml_buffer_reset: heap-backed buffers whose capacity exceeds
`max_size` get fresh storage of `max_size + 1` bytes (pool-backed buffers
skip the shrink); then length to 0 and terminator at index 0. -/
def aml_buffer_reset (h : AmlBuffer) (max_size junk : Nat) : AmlBuffer :=
  let h :=
    if max_size < h.size then
      if h.pool = false then
        { h with data := List.replicate (max_size + 1) junk, size := max_size }
      else h
    else h
  { h with length := 0, data := h.data.set 0 0 }

/-- From aml_buffer_shrink_by: truncate the length by `n` clamped at 0,
rewrite the terminator. -/
def aml_buffer_shrink_by (h : AmlBuffer) (n : Nat) : AmlBuffer :=
  { h with length := h.length - n, data := h.data.set (h.length - n) 0 }

/-- From aml_buffer_detach: the handle is reset to the 1-byte sentinel state
(data points at a slot inside the handle, zeroed; length and size 0); the
backing flag is untouched.  The detached storage itself leaves the model. -/
def aml_buffer_detach (h : AmlBuffer) : AmlBuffer :=
  { h with data := [0], length := 0, size := 0 }

/-- From aml_buffer_pool_init (and, for the heap variant aml_buffer_init
whose body lives in src/aml_buffer.c, modelled from the spec, which gives it
the identical layout): a handle with `initial_size + 1` bytes of storage,
byte 0 zeroed, length 0, capacity `initial_size`. -/
def bufferStart (isPool : Bool) (initial_size junk : Nat) : AmlBuffer :=
  { data := (List.replicate (initial_size + 1) junk).set 0 0,
    length := 0, size := initial_size, pool := isPool }

/-- Public buffer operations (the surface listed in the spec).  String
arguments (sets, appends, appendsz, and the formatted setf/appendf whose
vsnprintf core reduces to appending the formatted bytes) carry the byte
content of the C string; operations that may allocate carry the junk byte
filling fresh storage. -/
inductive BufOp where
  | set (bs : List Nat) (junk : Nat)
  | sets (bs : List Nat) (junk : Nat)
  | setc (c : Nat) (junk : Nat)
  | setn (c : Nat) (n : Int) (junk : Nat)
  | setf (bs : List Nat) (junk : Nat)
  | append (bs : List Nat) (junk : Nat)
  | appends (bs : List Nat) (junk : Nat)
  | appendsz (bs : List Nat) (junk : Nat)
  | appendc (c : Nat) (junk : Nat)
  | appendn (c : Nat) (n : Int) (junk : Nat)
  | appendf (bs : List Nat) (junk : Nat)
  | appendAlloc (n : Nat) (junk : Nat)
  | appendUalloc (n : Nat) (junk : Nat)
  | resize (n : Nat) (junk : Nat)
  | alloc (n : Nat) (junk : Nat)
  | shrinkBy (n : Nat)
  | clear
  | reset (m : Nat) (junk : Nat)
  | detach
deriving Repr, DecidableEq

/-- Dispatch of one public operation to its implementation.  aml_buffer_set,
aml_buffer_sets, aml_buffer_setc all call _aml_buffer_set; aml_buffer_setn
sets the length to 0 and delegates to aml_buffer_appendn; aml_buffer_setf
sets the length to 0 and appends the formatted bytes; aml_buffer_append,
aml_buffer_appends call _aml_buffer_append and aml_buffer_appendsz appends
the string bytes plus their terminator byte. -/
def applyBufOp (h : AmlBuffer) : BufOp → AmlBuffer
  | .set bs junk => _aml_buffer_set h bs junk
  | .sets bs junk => _aml_buffer_set h bs junk
  | .setc c junk => _aml_buffer_set h [c] junk
  | .setn c n junk => aml_buffer_appendn { h with length := 0 } c n junk
  | .setf bs junk => _aml_buffer_append { h with length := 0 } bs junk
  | .append bs junk => _aml_buffer_append h bs junk
  | .appends bs junk => _aml_buffer_append h bs junk
  | .appendsz bs junk => _aml_buffer_append h (bs ++ [0]) junk
  | .appendc c junk => aml_buffer_appendc h c junk
  | .appendn c n junk => aml_buffer_appendn h c n junk
  | .appendf bs junk => _aml_buffer_append h bs junk
  | .appendAlloc n junk => aml_buffer_append_alloc h n junk
  | .appendUalloc n junk => aml_buffer_append_ualloc h n junk
  | .resize n junk => aml_buffer_resize h n junk
  | .alloc n junk => aml_buffer_alloc h n junk
  | .shrinkBy n => aml_buffer_shrink_by h n
  | .clear => aml_buffer_clear h
  | .reset m junk => aml_buffer_reset h m junk
  | .detach => aml_buffer_detach h

/-- Folding a sequence of public operations over a buffer. -/
def applyBufOps (h : AmlBuffer) (ops : List BufOp) : AmlBuffer :=
  ops.foldl applyBufOp h

/-- Well-formed use of an operation: aml_buffer_setn with a non-positive
count is excluded (its appendn delegate returns without rewriting the
terminator).  Every other operation is unrestricted. -/
def BufOpWf : BufOp → Prop
  | .setn _ n _ => 0 < n
  | _ => True

instance : DecidablePred BufOpWf := fun op => by
  cases op <;> simp only [BufOpWf] <;> infer_instance

/-- Structural buffer invariant: the logical length never exceeds the
capacity and the storage spans exactly capacity + 1 bytes. -/
def BufShape (h : AmlBuffer) : Prop :=
  h.length ≤ h.size ∧ h.data.length = h.size + 1

/-- NUL-termination: the storage byte at index `length` is 0. -/
def NulTerm (h : AmlBuffer) : Prop :=
  h.data.getD h.length 1 = 0

instance : DecidablePred BufShape := fun h => by unfold BufShape; infer_instance

instance : DecidablePred NulTerm := fun h => by unfold NulTerm; infer_instance

/-! ## Region (aml_pool) model

Header sizes on the LP64 build the source assumes: sizeof(aml_pool_t) = 48,
sizeof(aml_pool_node_t) = 16, sizeof(size_t) = 8.  A pool state records the
capacity of the first block (allocated together with the header), the
capacities of the extra blocks (newest first; the current block is the head
of `extra` when nonempty, else the first block), the bump-cursor offset
inside the current block, and the `size`, `used` and `minimum_growth_size`
counters.  `isSub` is true when h->pool is non-null (a sub-pool). -/

/-- sizeof(aml_pool_t) on the LP64 layout (six 8-byte fields). -/
def sizeofPool : Nat := 48

/-- sizeof(aml_pool_node_t) on the LP64 layout (two 8-byte fields). -/
def sizeofNode : Nat := 16

/-- Pool (region) state. -/
structure AmlPool where
  firstCap : Nat
  extra : List Nat
  curOfs : Nat
  size : Nat
  used : Nat
  minimum_growth_size : Nat
  isSub : Bool
deriving Repr, DecidableEq

/-- Capacity of the current block: head of `extra`, else the first block. -/
def curCap (h : AmlPool) : Nat := h.extra.headD h.firstCap

/-- From aml_pool_size: `h->size + (h->current->endp - h->curp)`. -/
def aml_pool_size (h : AmlPool) : Nat := h.size + (curCap h - h.curOfs)

/-- From aml_pool_used: the `used` counter. -/
def aml_pool_used (h : AmlPool) : Nat := h.used

/-- Rounding up to a multiple of sizeof(size_t) = 8, as in
`n + ((8 - (n & 7)) & 7)`. -/
def roundUpWord (n : Nat) : Nat := n + ((8 - n % 8) % 8)

/-- From _aml_pool_init: round the requested size up to word alignment;
when bit 12 of the rounded size is clear (`(block_size & 4096) == 0`) the
first block is trimmed by the two header sizes; `used` is set to the rounded
size plus both header sizes, `size` to 0, the cursor to the block start, and
the minimum growth size to the rounded size.  The zero-size abort path is
outside the model (callers must pass a positive size). -/
def _aml_pool_init (initial_size : Nat) : AmlPool :=
  let is := roundUpWord initial_size
  let block_size := if is &&& 4096 = 0 then is - (sizeofPool + sizeofNode) else is
  { firstCap := block_size, extra := [], curOfs := 0, size := 0,
    used := is + sizeofPool + sizeofNode,
    minimum_growth_size := is, isSub := false }

/-- From _aml_pool_alloc_grow: a new block of `max len minimum_growth_size`
bytes is linked in front; when the old current block was itself an extra
block its leftover space is added to `size`; `used` grows by the node header
plus the block size; the cursor lands `len` bytes into the new block.  (For
a sub-pool the block storage is drawn from the parent; the parent state is
outside this single-pool model.) -/
def _aml_pool_alloc_grow (h : AmlPool) (len : Nat) : AmlPool :=
  let block_size := max len h.minimum_growth_size
  { h with
    size := if h.extra = [] then h.size else h.size + (curCap h - h.curOfs),
    used := h.used + sizeofNode + block_size,
    extra := block_size :: h.extra,
    curOfs := len }

/-- Modelled from the spec: the inline aml_pool_alloc lives in the impl
header impl/aml_pool.h which is not part of the provided sources; per the
spec it performs a word-aligned bump allocation in the current block and
falls back to _aml_pool_alloc_grow, leaving `used` unchanged on the in-block
path (used is a footprint metric). -/
def aml_pool_alloc (h : AmlPool) (len : Nat) : AmlPool :=
  let pad := (8 - h.curOfs % 8) % 8
  if h.curOfs + pad + len ≤ curCap h then { h with curOfs := h.curOfs + pad + len }
  else _aml_pool_alloc_grow h len

/-- From aml_pool_aalloc, in-block path: `aligned = (curp + alignment - 1)
masked down to a multiple of alignment` (for the power-of-two alignments the
API admits, the mask equals rounding up to a multiple, written here with
mod); if the padded request fits before endp the cursor advances by padding
plus size and — unlike the other allocation paths — `used` is incremented by
padding plus size; otherwise the pool grows by `size + alignment - 1`.
`base` is the address of the current block data start (the model keeps
offsets, the C code aligns absolute addresses). -/
def aml_pool_aalloc (base : Nat) (h : AmlPool) (alignment size : Nat) : AmlPool :=
  let current := base + h.curOfs
  let padding := (alignment - current % alignment) % alignment
  if h.curOfs + padding + size ≤ curCap h then
    { h with curOfs := h.curOfs + padding + size, used := h.used + padding + size }
  else
    _aml_pool_alloc_grow h (size + alignment - 1)

/-- From aml_pool_clear: every extra block is released (one aml_free call
per extra block, skipped entirely for sub-pools), the cursor returns to the
start of the first block, `size` to 0 and `used` to the first-block capacity
plus the two header sizes.  The second component counts the system release
calls the operation performs. -/
def aml_pool_clear (h : AmlPool) : AmlPool × Nat :=
  ({ h with extra := [], curOfs := 0, size := 0,
            used := h.firstCap + sizeofPool + sizeofNode },
   if h.isSub then 0 else h.extra.length)

/-- From aml_pool_destroy: aml_pool_clear, then the combined header plus
first block is released only when the pool is not a sub-pool.  Returns the
number of extra-block release calls and whether the header allocation was
released. -/
def aml_pool_destroy (h : AmlPool) : Nat × Bool :=
  ((aml_pool_clear h).2, !h.isSub)

/-- From aml_pool_pool_init: the sub-pool storage (header, node and first
block) is drawn from the parent with aml_pool_alloc; the sub-pool has no
4096 trim, `used` equal to the rounded size plus headers, and its parent
link set.  Returns the updated parent and the new sub-pool. -/
def aml_pool_pool_init (parent : AmlPool) (initial_size : Nat) : AmlPool × AmlPool :=
  let is := roundUpWord initial_size
  let block_size := is
  (aml_pool_alloc parent (block_size + sizeofPool + sizeofNode),
   { firstCap := block_size, extra := [], curOfs := 0, size := 0,
     used := is + sizeofPool + sizeofNode,
     minimum_growth_size := is, isSub := true })

/-! ## Tokenizers

The splitters operate on a pool copy of the input C string (the public
wrappers duplicate the input with aml_pool_strdup before splitting), so the
model works directly on the byte content of the string; the NULL terminator
of the returned token array is the end of the returned list. -/

/-- From _aml_pool_split (non-null input): walk the string, terminating the
current token at every delimiter occurrence and starting the next one just
behind it; empty tokens are kept. -/
def _aml_pool_split (delim : Nat) : List Nat → List (List Nat)
  | [] => [[]]
  | c :: cs =>
    if c = delim then [] :: _aml_pool_split delim cs
    else
      match _aml_pool_split delim cs with
      | t :: ts => (c :: t) :: ts
      | [] => [[c]]

/-- Joining tokens with a delimiter (the spec side of the split round-trip
claim: interleave the delimiter between consecutive tokens). -/
def joinTokens (delim : Nat) : List (List Nat) → List Nat
  | [] => []
  | [t] => t
  | t :: ts => t ++ delim :: joinTokens delim ts

/-- From _aml_pool_split_with_escape, second pass (non-null input): the
boolean state records that the previous character was an unconsumed escape;
an escaped character is copied literally (the escape itself is dropped), an
unescaped escape character only sets the state, an unescaped delimiter ends
the token. -/
def splitEscGo (delim escape : Nat) : Bool → List Nat → List (List Nat)
  | _, [] => [[]]
  | true, c :: cs =>
    match splitEscGo delim escape false cs with
    | t :: ts => (c :: t) :: ts
    | [] => [[c]]
  | false, c :: cs =>
    if c = escape then splitEscGo delim escape true cs
    else if c = delim then [] :: splitEscGo delim escape false cs
    else
      match splitEscGo delim escape false cs with
      | t :: ts => (c :: t) :: ts
      | [] => [[c]]

/-- Escape-aware splitter entry point. -/
def _aml_pool_split_with_escape (delim escape : Nat) (s : List Nat) : List (List Nat) :=
  splitEscGo delim escape false s

/-! ## Base64 codec -/

/-- The 64-character alphabet of b64_table:
ABCDEFGHIJKLMNOPQRSTUVWXYZabcdefghijklmnopqrstuvwxyz0123456789+/ as byte
values. -/
def b64Table : List Nat :=
  (List.range 26).map (fun i => 65 + i) ++ (List.range 26).map (fun i => 97 + i) ++
  (List.range 10).map (fun i => 48 + i) ++ [43, 47]

/-- The 256-entry b64_dec_table: 255 (0xFF) marks an invalid byte, the rest
maps each alphabet byte back to its 6-bit value. -/
def b64_dec_table : List Nat :=
  List.replicate 43 255 ++ [62] ++ List.replicate 3 255 ++ [63] ++
  (List.range 10).map (fun i => 52 + i) ++ List.replicate 7 255 ++
  (List.range 26).map (fun i => i) ++ List.replicate 6 255 ++
  (List.range 26).map (fun i => 26 + i) ++ List.replicate 133 255

/-- One 3-byte group of the encode loop: the 24-bit triple is split into
four 6-bit fields, each looked up in b64_table ((t >> k) & 0x3F written as
division and mod). -/
def encGroup (a b c : Nat) : List Nat :=
  let t := a * 65536 + b * 256 + c
  [b64Table.getD (t / 262144 % 64) 0,
   b64Table.getD (t / 4096 % 64) 0,
   b64Table.getD (t / 64 % 64) 0,
   b64Table.getD (t % 64) 0]

/-- The encode while-loop: 3 bytes at a time, a final short group zero
padded. -/
def encodeChunks : List Nat → List Nat
  | a :: b :: c :: rest => encGroup a b c ++ encodeChunks rest
  | [a, b] => encGroup a b 0
  | [a] => encGroup a 0 0
  | [] => []

/-- From aml_pool_base64_encode: empty input yields the empty (non-null)
string; otherwise the chunked encoding with its last one or two characters
overwritten by 61 (the pad character, ASCII =) when the input length is not
a multiple of 3. -/
def aml_pool_base64_encode (data : List Nat) : List Nat :=
  if data.length = 0 then []
  else
    let e := encodeChunks data
    if data.length % 3 = 1 then e.take (e.length - 2) ++ [61, 61]
    else if data.length % 3 = 2 then e.take (e.length - 1) ++ [61]
    else e

/-- One character of the decode loop: 61 (the pad character) decodes as 0,
anything mapped to 0xFF by b64_dec_table is an invalid-character failure. -/
def b64CharVal (c : Nat) : Option Nat :=
  if c = 61 then some 0
  else
    let d := b64_dec_table.getD c 255
    if d = 255 then none else some d

/-- The inner k-loop of the decoder: or the 6-bit values into a 24-bit
accumulator at shifts 18, 12, 6, 0 (the fields are disjoint, so the C
bitwise-or is addition). -/
def decodeChunkAux : List Nat → Nat → Option Nat
  | [], _ => some 0
  | c :: cs, sh =>
    match b64CharVal c, decodeChunkAux cs (sh - 6) with
    | some v, some rest => some (v * 2 ^ sh + rest)
    | _, _ => none

/-- The three output bytes of one 24-bit accumulator value:
(val >> 16) & 0xFF, (val >> 8) & 0xFF, val & 0xFF. -/
def byte3 (v : Nat) : List Nat := [v / 65536 % 256, v / 256 % 256, v % 256]

/-- The decode while-loop: four input characters per iteration, a final
short group (fewer than four characters left) still emits three bytes. -/
def decodeLoop : List Nat → Option (List Nat)
  | [] => some []
  | c1 :: c2 :: c3 :: c4 :: rest =>
    match decodeChunkAux [c1, c2, c3, c4] 18, decodeLoop rest with
    | some v, some out => some (byte3 v ++ out)
    | _, _ => none
  | l => (decodeChunkAux l 18).map byte3

/-- The pad count of aml_pool_base64_decode: one for a final 61 byte, one
more for a 61 byte in the second-to-last position. -/
def decPad (bs : List Nat) : Nat :=
  (if bs.getD (bs.length - 1) 0 = 61 then 1 else 0) +
  (if 2 ≤ bs.length ∧ bs.getD (bs.length - 2) 0 = 61 then 1 else 0)

/-- From aml_pool_base64_decode: empty input yields a (non-null) zero-length
result; an invalid character anywhere yields the failure indication (none);
otherwise the chunk-decoded bytes with the final `pad` bytes dropped. -/
def aml_pool_base64_decode (bs : List Nat) : Option (List Nat) :=
  if bs.length = 0 then some []
  else
    match decodeLoop bs with
    | none => none
    | some out => some (out.take (out.length - decPad bs))

/-- Number of pad characters the encoder appends for an input of length
`n`: two when n mod 3 = 1, one when n mod 3 = 2, none otherwise. -/
def padCount (n : Nat) : Nat :=
  if n % 3 = 1 then 2 else if n % 3 = 2 then 1 else 0

/-- The number of trailing pad characters (61) of a byte string, capped at
two — the reading of trailing = used by the claim about decode output
length. -/
def trailingEqCount (bs : List Nat) : Nat :=
  if bs.getD (bs.length - 1) 0 = 61 then
    if 2 ≤ bs.length ∧ bs.getD (bs.length - 2) 0 = 61 then 2 else 1
  else 0

/-! ## Helper lemmas: storage writes -/

theorem length_listWrite (l : List Nat) (i : Nat) (bs : List Nat)
    (h : i + bs.length ≤ l.length) : (listWrite l i bs).length = l.length := by
  unfold listWrite
  simp only [List.length_append, List.length_take, List.length_drop]
  omega

theorem getD_set_self (l : List Nat) (i v : Nat) (h : i < l.length) :
    (l.set i v).getD i 1 = v := by
  rw [List.getD_eq_getElem?_getD, List.getElem?_set_self h]
  rfl

/-! ## Buffer invariant preservation -/

theorem grow_spec (h : AmlBuffer) (n junk : Nat)
    (h1 : h.length ≤ h.size) (h2 : h.data.length = h.size + 1) (hn : h.size < n) :
    (_aml_buffer_grow h n junk).size = (n + 50) + (h.size >>> 3) ∧
    (_aml_buffer_grow h n junk).data.length = (_aml_buffer_grow h n junk).size + 1 ∧
    (_aml_buffer_grow h n junk).length = h.length ∧
    (_aml_buffer_grow h n junk).pool = h.pool ∧
    n ≤ (_aml_buffer_grow h n junk).size := by
  unfold _aml_buffer_grow
  dsimp only
  refine ⟨rfl, ?_, rfl, rfl, by omega⟩
  split
  · simp only [List.length_append, List.length_take, List.length_replicate]
    omega
  · split
    · simp only [List.length_append, List.length_take, List.length_replicate]
      omega
    · simp only [List.length_replicate]

theorem alloc_core_spec (h : AmlBuffer) (n junk : Nat) :
    (_aml_buffer_alloc h n junk).size = (n + 50) + (h.size >>> 3) ∧
    (_aml_buffer_alloc h n junk).data.length = (_aml_buffer_alloc h n junk).size + 1 ∧
    (_aml_buffer_alloc h n junk).length = h.length ∧
    (_aml_buffer_alloc h n junk).pool = h.pool ∧
    n ≤ (_aml_buffer_alloc h n junk).size := by
  unfold _aml_buffer_alloc
  dsimp only
  exact ⟨rfl, by simp [List.length_replicate], rfl, rfl, by omega⟩

theorem final_spec (x : AmlBuffer) (d : List Nat) (L : Nat)
    (hL : L ≤ x.size) (hd : d.length = x.size + 1) :
    BufShape { x with data := d.set L 0, length := L } ∧
    NulTerm { x with data := d.set L 0, length := L } := by
  refine ⟨⟨hL, ?_⟩, ?_⟩
  · simp only [List.length_set]
    exact hd
  · exact getD_set_self d L 0 (by omega)

theorem set_core_spec (h : AmlBuffer) (bs : List Nat) (junk : Nat) (hs : BufShape h) :
    BufShape (_aml_buffer_set h bs junk) ∧ NulTerm (_aml_buffer_set h bs junk) := by
  obtain ⟨hl, hd⟩ := hs
  unfold _aml_buffer_set
  dsimp only
  by_cases hc : h.size < bs.length
  · rw [if_pos hc]
    obtain ⟨hsz, hdl, hlen, hp, hge⟩ := alloc_core_spec h bs.length junk
    set h1 := _aml_buffer_alloc h bs.length junk with hh1
    have hw : (listWrite h1.data 0 bs).length = h1.data.length :=
      length_listWrite _ _ _ (by omega)
    exact final_spec h1 _ _ (by omega) (by rw [hw, hdl])
  · rw [if_neg hc]
    have hw : (listWrite h.data 0 bs).length = h.data.length :=
      length_listWrite _ _ _ (by omega)
    exact final_spec h _ _ (by omega) (by rw [hw, hd])

theorem append_core_spec (h : AmlBuffer) (bs : List Nat) (junk : Nat) (hs : BufShape h) :
    BufShape (_aml_buffer_append h bs junk) ∧ NulTerm (_aml_buffer_append h bs junk) := by
  obtain ⟨hl, hd⟩ := hs
  unfold _aml_buffer_append
  dsimp only
  by_cases hc : h.size < h.length + bs.length
  · rw [if_pos hc]
    obtain ⟨hsz, hdl, hlen, hp, hge⟩ := grow_spec h (h.length + bs.length) junk hl hd hc
    set h1 := _aml_buffer_grow h (h.length + bs.length) junk with hh1
    have hw : (listWrite h1.data h1.length bs).length = h1.data.length :=
      length_listWrite _ _ _ (by omega)
    exact final_spec h1 _ _ (by omega) (by rw [hw, hdl])
  · rw [if_neg hc]
    have hw : (listWrite h.data h.length bs).length = h.data.length :=
      length_listWrite _ _ _ (by omega)
    exact final_spec h _ _ (by omega) (by rw [hw, hd])

theorem append_ualloc_spec (h : AmlBuffer) (n junk : Nat) (hs : BufShape h) :
    BufShape (aml_buffer_append_ualloc h n junk) ∧
    NulTerm (aml_buffer_append_ualloc h n junk) := by
  obtain ⟨hl, hd⟩ := hs
  unfold aml_buffer_append_ualloc
  dsimp only
  by_cases hc : h.size < h.length + n
  · rw [if_pos hc]
    obtain ⟨hsz, hdl, hlen, hp, hge⟩ := grow_spec h (h.length + n) junk hl hd hc
    set h1 := _aml_buffer_grow h (h.length + n) junk with hh1
    exact final_spec h1 _ _ (by omega) hdl
  · rw [if_neg hc]
    exact final_spec h _ _ (by omega) hd

theorem append_alloc_spec (h : AmlBuffer) (n junk : Nat) (hs : BufShape h) :
    BufShape (aml_buffer_append_alloc h n junk) ∧
    NulTerm (aml_buffer_append_alloc h n junk) := by
  unfold aml_buffer_append_alloc
  dsimp only
  by_cases hm : 0 < h.length % 8
  · rw [if_pos hm]
    exact append_ualloc_spec _ n junk (append_ualloc_spec h _ junk hs).1
  · rw [if_neg hm]
    exact append_ualloc_spec h n junk hs

theorem appendc_spec (h : AmlBuffer) (c junk : Nat) (hs : BufShape h) :
    BufShape (aml_buffer_appendc h c junk) ∧ NulTerm (aml_buffer_appendc h c junk) := by
  obtain ⟨hl, hd⟩ := hs
  unfold aml_buffer_appendc
  dsimp only
  by_cases hc : h.size < h.length + 1
  · rw [if_pos hc]
    obtain ⟨hsz, hdl, hlen, hp, hge⟩ := grow_spec h (h.length + 1) junk hl hd hc
    set h1 := _aml_buffer_grow h (h.length + 1) junk with hh1
    exact final_spec h1 _ _ (by omega) (by rw [List.length_set, hdl])
  · rw [if_neg hc]
    exact final_spec h _ _ (by omega) (by rw [List.length_set, hd])

theorem appendn_spec (h : AmlBuffer) (c : Nat) (n : Int) (junk : Nat) (hs : BufShape h) :
    BufShape (aml_buffer_appendn h c n junk) ∧
    (NulTerm h → NulTerm (aml_buffer_appendn h c n junk)) ∧
    (0 < n → NulTerm (aml_buffer_appendn h c n junk)) := by
  obtain ⟨hl, hd⟩ := hs
  unfold aml_buffer_appendn
  dsimp only
  by_cases hn : n ≤ 0
  · rw [if_pos hn]
    exact ⟨⟨hl, hd⟩, fun ht => ht, fun hp => absurd hp (by omega)⟩
  · rw [if_neg hn]
    by_cases hc : h.size < h.length + n.toNat
    · rw [if_pos hc]
      obtain ⟨hsz, hdl, hlen, hp, hge⟩ := grow_spec h (h.length + n.toNat) junk hl hd hc
      set h1 := _aml_buffer_grow h (h.length + n.toNat) junk with hh1
      have hw : (listWrite h1.data h1.length (List.replicate n.toNat c)).length = h1.data.length :=
        length_listWrite _ _ _ (by rw [List.length_replicate]; omega)
      have hres := final_spec h1 _ _ (show h1.length + n.toNat ≤ h1.size by omega) (by rw [hw, hdl])
      exact ⟨hres.1, fun _ => hres.2, fun _ => hres.2⟩
    · rw [if_neg hc]
      have hw : (listWrite h.data h.length (List.replicate n.toNat c)).length = h.data.length :=
        length_listWrite _ _ _ (by rw [List.length_replicate]; omega)
      have hres := final_spec h _ _ (show h.length + n.toNat ≤ h.size by omega) (by rw [hw, hd])
      exact ⟨hres.1, fun _ => hres.2, fun _ => hres.2⟩

theorem resize_spec (h : AmlBuffer) (n junk : Nat) (hs : BufShape h) :
    BufShape (aml_buffer_resize h n junk) ∧ NulTerm (aml_buffer_resize h n junk) := by
  obtain ⟨hl, hd⟩ := hs
  unfold aml_buffer_resize
  dsimp only
  by_cases hc : h.size < n
  · rw [if_pos hc]
    obtain ⟨hsz, hdl, hlen, hp, hge⟩ := grow_spec h n junk hl hd hc
    set h1 := _aml_buffer_grow h n junk with hh1
    exact final_spec h1 _ _ hge hdl
  · rw [if_neg hc]
    exact final_spec h _ _ (by omega) hd

theorem alloc_spec (h : AmlBuffer) (n junk : Nat) (hs : BufShape h) :
    BufShape (aml_buffer_alloc h n junk) ∧ NulTerm (aml_buffer_alloc h n junk) := by
  obtain ⟨hl, hd⟩ := hs
  unfold aml_buffer_alloc
  dsimp only
  by_cases hc : h.size < n
  · rw [if_pos hc]
    obtain ⟨hsz, hdl, hlen, hp, hge⟩ := alloc_core_spec h n junk
    set h1 := _aml_buffer_alloc h n junk with hh1
    exact final_spec h1 _ _ hge hdl
  · rw [if_neg hc]
    exact final_spec h _ _ (by omega) hd

theorem clear_spec (h : AmlBuffer) (hs : BufShape h) :
    BufShape (aml_buffer_clear h) ∧ NulTerm (aml_buffer_clear h) := by
  obtain ⟨hl, hd⟩ := hs
  unfold aml_buffer_clear
  exact final_spec h _ _ (by omega) hd

theorem reset_spec (h : AmlBuffer) (m junk : Nat) (hs : BufShape h) :
    BufShape (aml_buffer_reset h m junk) ∧ NulTerm (aml_buffer_reset h m junk) := by
  obtain ⟨hl, hd⟩ := hs
  unfold aml_buffer_reset
  dsimp only
  by_cases hc : m < h.size
  · rw [if_pos hc]
    by_cases hp : h.pool = false
    · rw [if_pos hp]
      exact final_spec _ _ _ (by omega) (by simp [List.length_replicate])
    · rw [if_neg hp]
      exact final_spec h _ _ (by omega) hd
  · rw [if_neg hc]
    exact final_spec h _ _ (by omega) hd

theorem shrink_spec (h : AmlBuffer) (n : Nat) (hs : BufShape h) :
    BufShape (aml_buffer_shrink_by h n) ∧ NulTerm (aml_buffer_shrink_by h n) := by
  obtain ⟨hl, hd⟩ := hs
  unfold aml_buffer_shrink_by
  exact final_spec h _ _ (by omega) hd

theorem detach_spec (h : AmlBuffer) :
    BufShape (aml_buffer_detach h) ∧ NulTerm (aml_buffer_detach h) := by
  exact ⟨⟨Nat.le_refl 0, rfl⟩, rfl⟩

theorem applyBufOp_spec (h : AmlBuffer) (op : BufOp) (hs : BufShape h) :
    BufShape (applyBufOp h op) ∧
    (NulTerm h → BufOpWf op → NulTerm (applyBufOp h op)) := by
  cases op with
  | set bs junk =>
    exact ⟨(set_core_spec h bs junk hs).1, fun _ _ => (set_core_spec h bs junk hs).2⟩
  | sets bs junk =>
    exact ⟨(set_core_spec h bs junk hs).1, fun _ _ => (set_core_spec h bs junk hs).2⟩
  | setc c junk =>
    exact ⟨(set_core_spec h [c] junk hs).1, fun _ _ => (set_core_spec h [c] junk hs).2⟩
  | setn c n junk =>
    have hs0 : BufShape { h with length := 0 } := ⟨Nat.zero_le _, hs.2⟩
    have hres := appendn_spec { h with length := 0 } c n junk hs0
    exact ⟨hres.1, fun _ hw => hres.2.2 hw⟩
  | setf bs junk =>
    have hs0 : BufShape { h with length := 0 } := ⟨Nat.zero_le _, hs.2⟩
    have hres := append_core_spec { h with length := 0 } bs junk hs0
    exact ⟨hres.1, fun _ _ => hres.2⟩
  | append bs junk =>
    exact ⟨(append_core_spec h bs junk hs).1, fun _ _ => (append_core_spec h bs junk hs).2⟩
  | appends bs junk =>
    exact ⟨(append_core_spec h bs junk hs).1, fun _ _ => (append_core_spec h bs junk hs).2⟩
  | appendsz bs junk =>
    exact ⟨(append_core_spec h (bs ++ [0]) junk hs).1,
           fun _ _ => (append_core_spec h (bs ++ [0]) junk hs).2⟩
  | appendc c junk =>
    exact ⟨(appendc_spec h c junk hs).1, fun _ _ => (appendc_spec h c junk hs).2⟩
  | appendn c n junk =>
    have hres := appendn_spec h c n junk hs
    exact ⟨hres.1, fun ht _ => hres.2.1 ht⟩
  | appendf bs junk =>
    exact ⟨(append_core_spec h bs junk hs).1, fun _ _ => (append_core_spec h bs junk hs).2⟩
  | appendAlloc n junk =>
    exact ⟨(append_alloc_spec h n junk hs).1, fun _ _ => (append_alloc_spec h n junk hs).2⟩
  | appendUalloc n junk =>
    exact ⟨(append_ualloc_spec h n junk hs).1, fun _ _ => (append_ualloc_spec h n junk hs).2⟩
  | resize n junk =>
    exact ⟨(resize_spec h n junk hs).1, fun _ _ => (resize_spec h n junk hs).2⟩
  | alloc n junk =>
    exact ⟨(alloc_spec h n junk hs).1, fun _ _ => (alloc_spec h n junk hs).2⟩
  | shrinkBy n =>
    exact ⟨(shrink_spec h n hs).1, fun _ _ => (shrink_spec h n hs).2⟩
  | clear =>
    exact ⟨(clear_spec h hs).1, fun _ _ => (clear_spec h hs).2⟩
  | reset m junk =>
    exact ⟨(reset_spec h m junk hs).1, fun _ _ => (reset_spec h m junk hs).2⟩
  | detach =>
    exact ⟨(detach_spec h).1, fun _ _ => (detach_spec h).2⟩

theorem applyBufOps_spec (ops : List BufOp) : ∀ (h : AmlBuffer), BufShape h →
    BufShape (applyBufOps h ops) ∧
    (NulTerm h → (∀ op ∈ ops, BufOpWf op) → NulTerm (applyBufOps h ops)) := by
  induction ops with
  | nil => exact fun h hs => ⟨hs, fun ht _ => ht⟩
  | cons op ops ih =>
    intro h hs
    have hstep := applyBufOp_spec h op hs
    have hrec := ih (applyBufOp h op) hstep.1
    simp only [applyBufOps, List.foldl_cons] at hrec ⊢
    refine ⟨hrec.1, fun ht hw => hrec.2 (hstep.2 ht (hw op (by simp))) ?_⟩
    intro o ho
    exact hw o (by simp [ho])

theorem bufferStart_spec (p : Bool) (n junk : Nat) :
    BufShape (bufferStart p n junk) ∧ NulTerm (bufferStart p n junk) := by
  constructor
  · exact ⟨Nat.zero_le _, by simp [bufferStart, List.length_set, List.length_replicate]⟩
  · exact getD_set_self _ _ _ (by simp [bufferStart, List.length_replicate])

/-! ## Claim theorems: buffers -/

/-- C1 (counterexample): the claim as stated is false.  Starting from a
Region-backed buffer of capacity 4 (aml_buffer_pool_init), aml_buffer_sets
writes the one-byte content 97, and aml_buffer_setn with count 0 (a
non-positive ssize_t) then sets the length to 0 but delegates to
aml_buffer_appendn, which returns immediately without rewriting the
terminator, leaving storage byte 0 equal to 97 while the length is 0. -/
theorem nul_termination_setn_cex :
    ¬ NulTerm (applyBufOps (bufferStart true 4 0)
      [BufOp.sets [97] 0, BufOp.setn 120 0 0]) := by decide

/-- C1 (amended): for every buffer handle (heap- or Region-backed, any
initial capacity, any junk content of fresh storage) and every finite
sequence of the public operations in which each setn call has a positive
count, the storage byte at index `length` is 0 after every operation (every
prefix of a sequence is such a sequence, so the conclusion holds at each
intermediate state as well). -/
theorem nul_termination_of_wf_ops (isPool : Bool) (n junk : Nat) (ops : List BufOp)
    (hw : ∀ op ∈ ops, BufOpWf op) :
    NulTerm (applyBufOps (bufferStart isPool n junk) ops) := by
  have hstart := bufferStart_spec isPool n junk
  exact (applyBufOps_spec ops _ hstart.1).2 hstart.2 hw

/-- C1 (witness): a concrete run exercising the amended theorem. -/
theorem nul_termination_of_wf_ops_witness :
    NulTerm (applyBufOps (bufferStart true 2 9)
      [BufOp.appends [104, 105] 7, BufOp.setn 120 3 7, BufOp.appendc 33 7]) :=
  nul_termination_of_wf_ops true 2 9
    [BufOp.appends [104, 105] 7, BufOp.setn 120 3 7, BufOp.appendc 33 7] (by decide)

/-- C10: after every sequence of public operations from init/pool_init
(including detach and reset), `length <= size` holds, the storage spans
exactly `size + 1` bytes (hence at least capacity + 1), and in particular
the terminating write at index `length` is within the allocated storage. -/
theorem buffer_shape_after_ops (isPool : Bool) (n junk : Nat) (ops : List BufOp) :
    (applyBufOps (bufferStart isPool n junk) ops).length ≤
      (applyBufOps (bufferStart isPool n junk) ops).size ∧
    (applyBufOps (bufferStart isPool n junk) ops).data.length =
      (applyBufOps (bufferStart isPool n junk) ops).size + 1 ∧
    (applyBufOps (bufferStart isPool n junk) ops).length <
      (applyBufOps (bufferStart isPool n junk) ops).data.length := by
  obtain ⟨ha, hb⟩ := (applyBufOps_spec ops _ (bufferStart_spec isPool n junk).1).1
  exact ⟨ha, hb, by omega⟩

/-- C5: whenever a buffer operation must grow its storage (the requested
length exceeds the current capacity), both the content-preserving grow path
(_aml_buffer_grow, heap- or Region-backed) and the content-discarding path
(_aml_buffer_alloc) set the new capacity to exactly
`requested + 50 + (old_capacity >> 3)` and allocate storage of new capacity
plus 1 bytes. -/
theorem buffer_growth_formula (h : AmlBuffer) (n junk : Nat)
    (h1 : h.length ≤ h.size) (h2 : h.data.length = h.size + 1) (hn : h.size < n) :
    ((_aml_buffer_grow h n junk).size = (n + 50) + (h.size >>> 3) ∧
     (_aml_buffer_grow h n junk).data.length = ((n + 50) + (h.size >>> 3)) + 1) ∧
    ((_aml_buffer_alloc h n junk).size = (n + 50) + (h.size >>> 3) ∧
     (_aml_buffer_alloc h n junk).data.length = ((n + 50) + (h.size >>> 3)) + 1) := by
  obtain ⟨ga, gb, -, -, -⟩ := grow_spec h n junk h1 h2 hn
  obtain ⟨aa, ab, -, -, -⟩ := alloc_core_spec h n junk
  exact ⟨⟨ga, by rw [gb, ga]⟩, ⟨aa, by rw [ab, aa]⟩⟩

/-- C5 (witness): the growth formula evaluated on a concrete heap buffer of
capacity 8 growing to a requested length of 20: new capacity 71, storage 72
bytes. -/
theorem buffer_growth_formula_witness :
    ((_aml_buffer_grow (bufferStart false 8 3) 20 5).size = 71 ∧
     (_aml_buffer_grow (bufferStart false 8 3) 20 5).data.length = 72) ∧
    ((_aml_buffer_alloc (bufferStart false 8 3) 20 5).size = 71 ∧
     (_aml_buffer_alloc (bufferStart false 8 3) 20 5).data.length = 72) :=
  buffer_growth_formula (bufferStart false 8 3) 20 5 (by decide) (by decide) (by decide)

/-! ## Claim theorems: pools -/

/-- C3 (code bug, evaluated at the failing input): after aml_pool_init(4096)
the pool has drawn exactly 4096 + 64 = 4160 bytes from the system allocator
(one malloc of block plus headers) and used() reports 4160; an 8-byte,
8-aligned aml_pool_aalloc then fits entirely inside the current block — no
new block is linked, so no byte is drawn from the backing allocator — yet
used() rises to 4168, contradicting the footprint reading of used(). -/
theorem aalloc_inblock_bumps_used :
    aml_pool_used (_aml_pool_init 4096) = 4160 ∧
    (aml_pool_aalloc 64 (_aml_pool_init 4096) 8 8).extra = [] ∧
    aml_pool_used (aml_pool_aalloc 64 (_aml_pool_init 4096) 8 8) = 4168 := by decide

/-- C4 (code bug, evaluated at the failing input): for aml_pool_init(1024)
the rounded capacity has bit 12 clear, so the first block is trimmed to 960
bytes while used() is set to 1024 + 64 = 1088; aml_pool_clear recomputes
used() as first-block capacity plus headers = 1024, so clear does not return
used() to its post-init value even with no intervening allocation, although
size() is restored exactly. -/
theorem clear_used_differs_from_init :
    aml_pool_used (_aml_pool_init 1024) = 1088 ∧
    aml_pool_used (aml_pool_clear (_aml_pool_init 1024)).1 = 1024 ∧
    aml_pool_size (aml_pool_clear (_aml_pool_init 1024)).1 =
      aml_pool_size (_aml_pool_init 1024) := by decide

/-- C6: every sub-region (any pool state whose parent link is set, in
particular the result of aml_pool_pool_init) performs zero system release
calls in aml_pool_clear and in aml_pool_destroy, and aml_pool_destroy skips
releasing the combined header+first-block allocation.  The clear/destroy
code is a function of the sub-region state alone (it never touches the
parent except for the null test), so any parent state is left unchanged. -/
theorem subregion_releases_nothing :
    (∀ (parent : AmlPool) (n : Nat), ((aml_pool_pool_init parent n).2).isSub = true) ∧
    ∀ (h : AmlPool), h.isSub = true →
      (aml_pool_clear h).2 = 0 ∧
      (aml_pool_destroy h).1 = 0 ∧
      (aml_pool_destroy h).2 = false := by
  refine ⟨fun parent n => rfl, fun h hsub => ?_⟩
  unfold aml_pool_destroy aml_pool_clear
  simp [hsub]

/-- C6 (witness): a concrete sub-region carved from a standalone region,
with an extra block present, still frees nothing on clear/destroy. -/
theorem subregion_releases_nothing_witness :
    (aml_pool_clear { (aml_pool_pool_init (_aml_pool_init 128) 64).2 with
        extra := [64] }).2 = 0 ∧
    (aml_pool_destroy { (aml_pool_pool_init (_aml_pool_init 128) 64).2 with
        extra := [64] }).1 = 0 ∧
    (aml_pool_destroy { (aml_pool_pool_init (_aml_pool_init 128) 64).2 with
        extra := [64] }).2 = false :=
  subregion_releases_nothing.2 _ (by decide)

/-! ## Claim theorems: tokenizers -/

theorem split_ne_nil (d : Nat) (s : List Nat) : _aml_pool_split d s ≠ [] := by
  induction s with
  | nil => simp [_aml_pool_split]
  | cons c cs ih =>
    unfold _aml_pool_split
    split
    · simp
    · cases hsplit : _aml_pool_split d cs with
      | nil => exact absurd hsplit ih
      | cons t ts => simp [hsplit]

theorem split_length (d : Nat) (s : List Nat) :
    (_aml_pool_split d s).length = s.count d + 1 := by
  induction s with
  | nil => simp [_aml_pool_split]
  | cons c cs ih =>
    unfold _aml_pool_split
    split
    case isTrue hc =>
      subst hc
      simp only [List.length_cons, ih, List.count_cons, beq_self_eq_true, if_true]
    case isFalse hc =>
      cases hsplit : _aml_pool_split d cs with
      | nil => exact absurd hsplit (split_ne_nil d cs)
      | cons t ts =>
        rw [hsplit] at ih
        simp only [hsplit, List.length_cons] at ih ⊢
        have : (c == d) = false := beq_false_of_ne hc
        simp [List.count_cons, this, ih]

theorem join_cons (d c : Nat) (t : List Nat) (ts : List (List Nat)) :
    joinTokens d ((c :: t) :: ts) = c :: joinTokens d (t :: ts) := by
  cases ts with
  | nil => rfl
  | cons u us => simp [joinTokens]

theorem split_join (d : Nat) (s : List Nat) :
    joinTokens d (_aml_pool_split d s) = s := by
  induction s with
  | nil => rfl
  | cons c cs ih =>
    unfold _aml_pool_split
    split
    case isTrue hc =>
      subst hc
      cases hsplit : _aml_pool_split c cs with
      | nil => exact absurd hsplit (split_ne_nil c cs)
      | cons t ts =>
        rw [hsplit] at ih
        simp [joinTokens, hsplit, ih]
    case isFalse hc =>
      cases hsplit : _aml_pool_split d cs with
      | nil => exact absurd hsplit (split_ne_nil d cs)
      | cons t ts =>
        rw [hsplit] at ih
        simp only [hsplit, join_cons, ih]

/-- C7: for every input string and delimiter, the plain splitter
_aml_pool_split returns exactly (occurrences of the delimiter) + 1 tokens
(the NULL terminator of the token array is the end of the returned list),
empty segments included, and joining the tokens with the delimiter
reproduces the input exactly; splitting a,b,,c, (bytes 97 44 98 44 44 99
44) on the comma yields the five tokens a, b, empty, c, empty. -/
theorem split_count_and_roundtrip :
    (∀ (delim : Nat) (s : List Nat),
      (_aml_pool_split delim s).length = s.count delim + 1 ∧
      joinTokens delim (_aml_pool_split delim s) = s) ∧
    _aml_pool_split 44 [97, 44, 98, 44, 44, 99, 44] = [[97], [98], [], [99], []] :=
  ⟨fun delim s => ⟨split_length delim s, split_join delim s⟩, by decide⟩

/-- C8: the escape-aware splitter on the byte string a backslash comma b
comma c backslash backslash comma d backslash comma backslash comma e with
delimiter comma (44) and escape backslash (92) yields exactly the three
tokens a comma b, then c backslash, then d comma comma e: escape characters
are removed and escaped delimiters stay inside their token. -/
theorem split_with_escape_example :
    _aml_pool_split_with_escape 44 92
      [97, 92, 44, 98, 44, 99, 92, 92, 44, 100, 92, 44, 92, 44, 101] =
      [[97, 44, 98], [99, 92], [100, 44, 44, 101]] := by decide

/-! ## Base64 helper lemmas -/

set_option maxRecDepth 4000 in
theorem tbl_decode : ∀ v, v < 64 → b64CharVal (b64Table.getD v 0) = some v := by decide

set_option maxRecDepth 4000 in
theorem tbl_ne_pad : ∀ v, v < 64 → b64Table.getD v 0 ≠ 61 := by decide

set_option maxRecDepth 4000 in
theorem tbl_ne_pad2 : ∀ v, v < 64 → ¬(b64Table[v]?.getD 0) = 61 := by decide

theorem chunk_val (a b c : Nat) (ha : a < 256) (hb : b < 256) (hc : c < 256) :
    decodeChunkAux (encGroup a b c) 18 = some (a * 65536 + b * 256 + c) := by
  have h1 := tbl_decode ((a * 65536 + b * 256 + c) / 262144 % 64) (Nat.mod_lt _ (by norm_num))
  have h2 := tbl_decode ((a * 65536 + b * 256 + c) / 4096 % 64) (Nat.mod_lt _ (by norm_num))
  have h3 := tbl_decode ((a * 65536 + b * 256 + c) / 64 % 64) (Nat.mod_lt _ (by norm_num))
  have h4 := tbl_decode ((a * 65536 + b * 256 + c) % 64) (Nat.mod_lt _ (by norm_num))
  simp only [encGroup, decodeChunkAux, h1, h2, h3, h4]
  exact congrArg some (by omega)

theorem byte3_val (a b c : Nat) (ha : a < 256) (hb : b < 256) (hc : c < 256) :
    byte3 (a * 65536 + b * 256 + c) = [a, b, c] := by
  simp only [byte3, List.cons.injEq, and_true]
  refine ⟨by omega, by omega, by omega⟩

theorem encGroup_length (a b c : Nat) : (encGroup a b c).length = 4 := by
  simp [encGroup]

theorem encLen4 : ∀ (s : List Nat), s ≠ [] → 4 ≤ (encodeChunks s).length
  | [], h => absurd rfl h
  | [a], _ => by simp [encodeChunks, encGroup_length]
  | [a, b], _ => by simp [encodeChunks, encGroup_length]
  | a :: b :: c :: rest, _ => by
    show 4 ≤ (encGroup a b c ++ encodeChunks rest).length
    rw [List.length_append, encGroup_length]
    omega

theorem encode_cons3 (a b c : Nat) (rest : List Nat) (hne : rest ≠ []) :
    aml_pool_base64_encode (a :: b :: c :: rest) =
      encGroup a b c ++ aml_pool_base64_encode rest := by
  have hL := encLen4 rest hne
  have hrne : rest.length ≠ 0 := by simpa using hne
  have hch : encodeChunks (a :: b :: c :: rest) = encGroup a b c ++ encodeChunks rest := rfl
  have hlen : (a :: b :: c :: rest).length = rest.length + 3 := by simp
  unfold aml_pool_base64_encode
  dsimp only
  rw [hch, hlen, if_neg (by omega), if_neg hrne]
  have hmod : (rest.length + 3) % 3 = rest.length % 3 := Nat.add_mod_right _ _
  have hal : (encGroup a b c ++ encodeChunks rest).length = (encodeChunks rest).length + 4 := by
    rw [List.length_append, encGroup_length]; omega
  by_cases h1 : rest.length % 3 = 1
  · rw [if_pos (by omega), if_pos h1, hal]
    rw [show (encodeChunks rest).length + 4 - 2 = (encodeChunks rest).length + 2 by omega]
    rw [List.take_append_eq_append_take,
        List.take_of_length_le (by rw [encGroup_length]; omega), encGroup_length]
    rw [show (encodeChunks rest).length + 2 - 4 = (encodeChunks rest).length - 2 by omega]
    simp [List.append_assoc]
  · rw [if_neg (by omega)]
    by_cases h2 : rest.length % 3 = 2
    · rw [if_pos (by omega), if_pos h2, hal]
      rw [show (encodeChunks rest).length + 4 - 1 = (encodeChunks rest).length + 3 by omega]
      rw [List.take_append_eq_append_take,
          List.take_of_length_le (by rw [encGroup_length]; omega), encGroup_length]
      rw [show (encodeChunks rest).length + 3 - 4 = (encodeChunks rest).length - 1 by omega]
      rw [if_neg h1]
      simp [List.append_assoc]
    · rw [if_neg (by omega), if_neg h2, if_neg h1]

theorem pad_val : b64CharVal 61 = some 0 := rfl

theorem decodeLoop_group (a b c : Nat) (s : List Nat) :
    decodeLoop (encGroup a b c ++ s) =
      match decodeChunkAux (encGroup a b c) 18, decodeLoop s with
      | some v, some out => some (byte3 v ++ out)
      | _, _ => none := rfl

theorem padCount_congr (m n : Nat) (h : m % 3 = n % 3) : padCount m = padCount n := by
  simp [padCount, h]

theorem encode_one_eq (a : Nat) :
    aml_pool_base64_encode [a] = (encGroup a 0 0).take 2 ++ [61, 61] := by
  unfold aml_pool_base64_encode
  dsimp only
  rw [if_neg (by simp), if_pos (by simp)]
  show (encodeChunks [a]).take ((encodeChunks [a]).length - 2) ++ [61, 61] = _
  rw [show encodeChunks [a] = encGroup a 0 0 from rfl, encGroup_length]

theorem encode_two_eq (a b : Nat) :
    aml_pool_base64_encode [a, b] = (encGroup a b 0).take 3 ++ [61] := by
  unfold aml_pool_base64_encode
  dsimp only
  rw [if_neg (by simp), if_neg (by simp), if_pos (by simp)]
  show (encodeChunks [a, b]).take ((encodeChunks [a, b]).length - 1) ++ [61] = _
  rw [show encodeChunks [a, b] = encGroup a b 0 from rfl, encGroup_length]

theorem encode_three_eq (a b c : Nat) :
    aml_pool_base64_encode [a, b, c] = encGroup a b c := by
  unfold aml_pool_base64_encode
  dsimp only
  rw [if_neg (by simp), if_neg (by simp), if_neg (by simp)]
  simp [encodeChunks]

theorem loop_enc_one (a : Nat) (ha : a < 256) :
    decodeLoop (aml_pool_base64_encode [a]) = some [a, 0, 0] := by
  have henc := encode_one_eq a
  have htake : (encGroup a 0 0).take 2 =
      [b64Table.getD ((a * 65536 + 0 * 256 + 0) / 262144 % 64) 0,
       b64Table.getD ((a * 65536 + 0 * 256 + 0) / 4096 % 64) 0] := rfl
  have hw := tbl_decode ((a * 65536 + 0 * 256 + 0) / 262144 % 64) (Nat.mod_lt _ (by norm_num))
  have hx := tbl_decode ((a * 65536 + 0 * 256 + 0) / 4096 % 64) (Nat.mod_lt _ (by norm_num))
  rw [henc, htake]
  show decodeLoop (_ :: _ :: 61 :: 61 :: []) = _
  rw [show decodeLoop (b64Table.getD ((a * 65536 + 0 * 256 + 0) / 262144 % 64) 0 ::
        b64Table.getD ((a * 65536 + 0 * 256 + 0) / 4096 % 64) 0 :: 61 :: 61 :: []) =
      match decodeChunkAux [b64Table.getD ((a * 65536 + 0 * 256 + 0) / 262144 % 64) 0,
        b64Table.getD ((a * 65536 + 0 * 256 + 0) / 4096 % 64) 0, 61, 61] 18,
        decodeLoop [] with
      | some v, some out => some (byte3 v ++ out)
      | _, _ => none from rfl]
  simp only [decodeChunkAux, hw, hx, pad_val, decodeLoop, byte3, List.append_nil]
  exact congrArg some (by
    simp only [List.cons.injEq, and_true]
    refine ⟨by omega, by omega, by omega⟩)

theorem loop_enc_two (a b : Nat) (ha : a < 256) (hb : b < 256) :
    decodeLoop (aml_pool_base64_encode [a, b]) = some [a, b, 0] := by
  have henc := encode_two_eq a b
  have htake : (encGroup a b 0).take 3 =
      [b64Table.getD ((a * 65536 + b * 256 + 0) / 262144 % 64) 0,
       b64Table.getD ((a * 65536 + b * 256 + 0) / 4096 % 64) 0,
       b64Table.getD ((a * 65536 + b * 256 + 0) / 64 % 64) 0] := rfl
  have h1 := tbl_decode ((a * 65536 + b * 256 + 0) / 262144 % 64) (Nat.mod_lt _ (by norm_num))
  have h2 := tbl_decode ((a * 65536 + b * 256 + 0) / 4096 % 64) (Nat.mod_lt _ (by norm_num))
  have h3 := tbl_decode ((a * 65536 + b * 256 + 0) / 64 % 64) (Nat.mod_lt _ (by norm_num))
  rw [henc, htake]
  show decodeLoop (_ :: _ :: _ :: 61 :: []) = _
  rw [show decodeLoop (b64Table.getD ((a * 65536 + b * 256 + 0) / 262144 % 64) 0 ::
        b64Table.getD ((a * 65536 + b * 256 + 0) / 4096 % 64) 0 ::
        b64Table.getD ((a * 65536 + b * 256 + 0) / 64 % 64) 0 :: 61 :: []) =
      match decodeChunkAux [b64Table.getD ((a * 65536 + b * 256 + 0) / 262144 % 64) 0,
        b64Table.getD ((a * 65536 + b * 256 + 0) / 4096 % 64) 0,
        b64Table.getD ((a * 65536 + b * 256 + 0) / 64 % 64) 0, 61] 18,
        decodeLoop [] with
      | some v, some out => some (byte3 v ++ out)
      | _, _ => none from rfl]
  simp only [decodeChunkAux, h1, h2, h3, pad_val, decodeLoop, byte3, List.append_nil]
  exact congrArg some (by
    simp only [List.cons.injEq, and_true]
    refine ⟨by omega, by omega, by omega⟩)

theorem loop_enc_three (a b c : Nat) (ha : a < 256) (hb : b < 256) (hc : c < 256) :
    decodeLoop (aml_pool_base64_encode [a, b, c]) = some [a, b, c] := by
  have henc := encode_three_eq a b c
  rw [henc]
  rw [show decodeLoop (encGroup a b c) =
      match decodeChunkAux (encGroup a b c) 18, decodeLoop [] with
      | some v, some out => some (byte3 v ++ out)
      | _, _ => none from rfl]
  rw [chunk_val a b c ha hb hc]
  simp only [decodeLoop, byte3_val a b c ha hb hc, List.append_nil]

theorem decPad_append (l s : List Nat) (hs : 2 ≤ s.length) :
    decPad (l ++ s) = decPad s := by
  unfold decPad
  rw [List.length_append]
  rw [List.getD_append_right _ _ _ _ (by omega), List.getD_append_right _ _ _ _ (by omega)]
  have e1 : l.length + s.length - 1 - l.length = s.length - 1 := by omega
  have e2 : l.length + s.length - 2 - l.length = s.length - 2 := by omega
  rw [e1, e2]
  have c1 : 2 ≤ l.length + s.length := by omega
  simp [c1, hs]

theorem encode_len_ge2 (x : List Nat) (hne : x ≠ []) :
    2 ≤ (aml_pool_base64_encode x).length := by
  have hL := encLen4 x hne
  unfold aml_pool_base64_encode
  dsimp only
  rw [if_neg (by simpa using hne)]
  split
  · simp [List.length_append]
  · split
    · simp only [List.length_append, List.length_take, List.length_cons, List.length_nil]
      omega
    · omega

theorem decPad_four (w x y z : Nat) :
    decPad [w, x, y, z] = (if z = 61 then 1 else 0) + (if y = 61 then 1 else 0) := by
  unfold decPad
  simp only [List.length_cons, List.length_nil]
  norm_num

theorem pad_enc : ∀ (fuel : Nat) (x : List Nat), x.length ≤ fuel → x ≠ [] →
    decPad (aml_pool_base64_encode x) = padCount x.length := by
  intro fuel
  induction fuel with
  | zero =>
    intro x hx hne
    cases x with
    | nil => exact absurd rfl hne
    | cons a t => simp at hx
  | succ n ih =>
    intro x hlen hne
    match x with
    | [a] =>
      rw [encode_one_eq a]
      rfl
    | [a, b] =>
      have hy := tbl_ne_pad2 ((a * 65536 + b * 256) / 64 % 64) (Nat.mod_lt _ (by norm_num))
      rw [encode_two_eq a b]
      rw [show (encGroup a b 0).take 3 ++ [61] =
          [b64Table.getD ((a * 65536 + b * 256 + 0) / 262144 % 64) 0,
           b64Table.getD ((a * 65536 + b * 256 + 0) / 4096 % 64) 0,
           b64Table.getD ((a * 65536 + b * 256 + 0) / 64 % 64) 0, 61] from rfl]
      rw [decPad_four]
      simp [hy, padCount]
    | [a, b, c] =>
      have hy := tbl_ne_pad2 ((a * 65536 + b * 256 + c) / 64 % 64) (Nat.mod_lt _ (by norm_num))
      have hz := tbl_ne_pad2 ((a * 65536 + b * 256 + c) % 64) (Nat.mod_lt _ (by norm_num))
      rw [encode_three_eq a b c]
      rw [show encGroup a b c =
          [b64Table.getD ((a * 65536 + b * 256 + c) / 262144 % 64) 0,
           b64Table.getD ((a * 65536 + b * 256 + c) / 4096 % 64) 0,
           b64Table.getD ((a * 65536 + b * 256 + c) / 64 % 64) 0,
           b64Table.getD ((a * 65536 + b * 256 + c) % 64) 0] from rfl]
      rw [decPad_four]
      simp [hy, hz, padCount]
    | a :: b :: c :: d :: rest =>
      have hne2 : (d :: rest) ≠ [] := by simp
      have hrec := ih (d :: rest) (by simp at hlen ⊢; omega) hne2
      rw [encode_cons3 a b c (d :: rest) hne2,
          decPad_append _ _ (encode_len_ge2 (d :: rest) hne2), hrec]
      refine padCount_congr _ _ ?_
      simp only [List.length_cons]
      omega

theorem loop_enc : ∀ (fuel : Nat) (x : List Nat), x.length ≤ fuel →
    (∀ y ∈ x, y < 256) → x ≠ [] →
    decodeLoop (aml_pool_base64_encode x) =
      some (x ++ List.replicate (padCount x.length) 0) := by
  intro fuel
  induction fuel with
  | zero =>
    intro x hx _ hne
    cases x with
    | nil => exact absurd rfl hne
    | cons a t => simp at hx
  | succ n ih =>
    intro x hlen hbytes hne
    match x with
    | [a] =>
      have ha := hbytes a (by simp)
      rw [loop_enc_one a ha]
      simp [padCount]
    | [a, b] =>
      have ha := hbytes a (by simp)
      have hb := hbytes b (by simp)
      rw [loop_enc_two a b ha hb]
      simp [padCount]
    | [a, b, c] =>
      have ha := hbytes a (by simp)
      have hb := hbytes b (by simp)
      have hc := hbytes c (by simp)
      rw [loop_enc_three a b c ha hb hc]
      simp [padCount]
    | a :: b :: c :: d :: rest =>
      have ha := hbytes a (by simp)
      have hb := hbytes b (by simp)
      have hc := hbytes c (by simp)
      have hne2 : (d :: rest) ≠ [] := by simp
      have hrec := ih (d :: rest) (by simp at hlen ⊢; omega)
        (fun y hy => hbytes y (by simp at hy ⊢; tauto)) hne2
      rw [encode_cons3 a b c (d :: rest) hne2, decodeLoop_group,
          chunk_val a b c ha hb hc, hrec]
      dsimp only
      rw [byte3_val a b c ha hb hc]
      have hpc : padCount (a :: b :: c :: d :: rest).length =
          padCount (d :: rest).length := by
        refine padCount_congr _ _ ?_
        simp only [List.length_cons]
        omega
      rw [hpc]
      simp [List.append_assoc]

/-- C2: base64 decode inverts base64 encode: encoding the empty input
yields the empty (non-null) string and decoding the empty string yields the
(non-null) zero-length result, and for every byte sequence x the decoder
applied to the encoder output succeeds with exactly the bytes of x (hence
with reported output length equal to the length of x). -/
theorem base64_roundtrip :
    (aml_pool_base64_encode [] = [] ∧ aml_pool_base64_decode [] = some []) ∧
    ∀ (x : List Nat), (∀ y ∈ x, y < 256) →
      aml_pool_base64_decode (aml_pool_base64_encode x) = some x := by
  refine ⟨⟨rfl, rfl⟩, fun x hbytes => ?_⟩
  rcases eq_or_ne x [] with h | h
  · subst h; rfl
  · have hloop := loop_enc x.length x le_rfl hbytes h
    have hpad := pad_enc x.length x le_rfl h
    have hne2 : (aml_pool_base64_encode x).length ≠ 0 := by
      have := encode_len_ge2 x h
      omega
    unfold aml_pool_base64_decode
    rw [if_neg hne2, hloop]
    dsimp only
    simp only [List.length_append, List.length_replicate]
    rw [hpad, show x.length + padCount x.length - padCount x.length = x.length from by omega,
        List.take_left]

/-- C2 (witness): round trip of the concrete binary sequence used by the
repository test suite (bytes 0, 255, 16, 126, 128, 170, whose encoding is
AP8QfoCq). -/
theorem base64_roundtrip_witness :
    aml_pool_base64_decode (aml_pool_base64_encode [0, 255, 16, 126, 128, 170]) =
      some [0, 255, 16, 126, 128, 170] :=
  base64_roundtrip.2 [0, 255, 16, 126, 128, 170] (by decide)

/-! ## Base64 decoder error path and output length -/

set_option maxRecDepth 8000 in
theorem charVal_none_iff_small :
    ∀ c, c < 256 → ((b64CharVal c = none) ↔ ¬(c ∈ b64Table ∨ c = 61)) := by decide

set_option maxRecDepth 4000 in
theorem tbl_small : ∀ y ∈ b64Table, y < 256 := by decide

set_option maxRecDepth 8000 in
theorem charVal_none_iff (c : Nat) :
    (b64CharVal c = none) ↔ ¬(c ∈ b64Table ∨ c = 61) := by
  by_cases hc : c < 256
  · exact charVal_none_iff_small c hc
  · have h61 : c ≠ 61 := by omega
    have hmem : c ∉ b64Table := fun hm => absurd (tbl_small c hm) hc
    have hnone : b64CharVal c = none := by
      have hlen256 : b64_dec_table.length = 256 := by simp [b64_dec_table]
      unfold b64CharVal
      rw [if_neg h61]
      rw [List.getD_eq_default _ _ (by omega)]
      rfl
    simp [hnone, hmem, h61]

theorem chunkAux_none_iff : ∀ (cs : List Nat) (sh : Nat),
    decodeChunkAux cs sh = none ↔ ∃ c ∈ cs, b64CharVal c = none := by
  intro cs
  induction cs with
  | nil => intro sh; simp [decodeChunkAux]
  | cons c cs ih =>
    intro sh
    unfold decodeChunkAux
    cases hv : b64CharVal c with
    | none => simp [hv]
    | some v =>
      cases hrest : decodeChunkAux cs (sh - 6) with
      | none =>
        have := (ih (sh - 6)).mp hrest
        simp only [List.mem_cons]
        constructor
        · intro _
          obtain ⟨d, hd, hdn⟩ := this
          exact ⟨d, Or.inr hd, hdn⟩
        · intro _; trivial
      | some rest =>
        simp only [List.mem_cons]
        constructor
        · intro hcontra; simp at hcontra
        · rintro ⟨d, hd, hdn⟩
          rcases hd with rfl | hd
          · rw [hv] at hdn; simp at hdn
          · have := (ih (sh - 6)).mpr ⟨d, hd, hdn⟩
            rw [this] at hrest
            simp at hrest

theorem loop_none_iff : ∀ (fuel : Nat) (bs : List Nat), bs.length ≤ fuel →
    (decodeLoop bs = none ↔ ∃ c ∈ bs, b64CharVal c = none) := by
  intro fuel
  induction fuel with
  | zero =>
    intro bs hb
    have : bs = [] := by cases bs with | nil => rfl | cons a t => simp at hb
    subst this
    simp [decodeLoop]
  | succ n ih =>
    intro bs hlen
    match bs with
    | [] => simp [decodeLoop]
    | [a] =>
      show (decodeChunkAux [a] 18).map byte3 = none ↔ _
      rw [Option.map_eq_none']
      exact chunkAux_none_iff [a] 18
    | [a, b] =>
      show (decodeChunkAux [a, b] 18).map byte3 = none ↔ _
      rw [Option.map_eq_none']
      exact chunkAux_none_iff [a, b] 18
    | [a, b, c] =>
      show (decodeChunkAux [a, b, c] 18).map byte3 = none ↔ _
      rw [Option.map_eq_none']
      exact chunkAux_none_iff [a, b, c] 18
    | a :: b :: c :: d :: rest =>
      have hrec := ih rest (by simp at hlen ⊢; omega)
      show (match decodeChunkAux [a, b, c, d] 18, decodeLoop rest with
            | some v, some out => some (byte3 v ++ out)
            | _, _ => none) = none ↔ _
      constructor
      · intro hnone
        cases hv : decodeChunkAux [a, b, c, d] 18 with
        | none =>
          obtain ⟨e, he, hen⟩ := (chunkAux_none_iff [a, b, c, d] 18).mp hv
          refine ⟨e, ?_, hen⟩
          simp only [List.mem_cons] at he ⊢
          tauto
        | some v =>
          cases hr : decodeLoop rest with
          | none =>
            obtain ⟨e, he, hen⟩ := hrec.mp hr
            refine ⟨e, ?_, hen⟩
            simp only [List.mem_cons] at he ⊢
            tauto
          | some out =>
            rw [hv, hr] at hnone
            simp at hnone
      · rintro ⟨e, he, hen⟩
        simp only [List.mem_cons] at he
        rcases he with rfl | rfl | rfl | rfl | he
        · rw [(chunkAux_none_iff _ 18).mpr ⟨e, by simp, hen⟩]
        · rw [(chunkAux_none_iff _ 18).mpr ⟨e, by simp, hen⟩]
        · rw [(chunkAux_none_iff _ 18).mpr ⟨e, by simp, hen⟩]
        · rw [(chunkAux_none_iff _ 18).mpr ⟨e, by simp, hen⟩]
        · rw [hrec.mpr ⟨e, he, hen⟩]
          cases decodeChunkAux [a, b, c, d] 18 <;> rfl

theorem loop_length : ∀ (fuel : Nat) (bs : List Nat), bs.length ≤ fuel →
    ∀ out, decodeLoop bs = some out → out.length = 3 * ((bs.length + 3) / 4) := by
  intro fuel
  induction fuel with
  | zero =>
    intro bs hb out hout
    have : bs = [] := by cases bs with | nil => rfl | cons a t => simp at hb
    subst this
    simp [decodeLoop] at hout
    subst hout
    rfl
  | succ n ih =>
    intro bs hlen out hout
    match bs with
    | [] =>
      simp [decodeLoop] at hout
      subst hout
      rfl
    | [a] =>
      have : (decodeChunkAux [a] 18).map byte3 = some out := hout
      obtain ⟨v, -, hv2⟩ := Option.map_eq_some'.mp this
      subst hv2
      simp [byte3]
    | [a, b] =>
      have : (decodeChunkAux [a, b] 18).map byte3 = some out := hout
      obtain ⟨v, -, hv2⟩ := Option.map_eq_some'.mp this
      subst hv2
      simp [byte3]
    | [a, b, c] =>
      have : (decodeChunkAux [a, b, c] 18).map byte3 = some out := hout
      obtain ⟨v, -, hv2⟩ := Option.map_eq_some'.mp this
      subst hv2
      simp [byte3]
    | a :: b :: c :: d :: rest =>
      have hm : (match decodeChunkAux [a, b, c, d] 18, decodeLoop rest with
            | some v, some out => some (byte3 v ++ out)
            | _, _ => none) = some out := hout
      cases hv : decodeChunkAux [a, b, c, d] 18 with
      | none => rw [hv] at hm; simp at hm
      | some v =>
        cases hr : decodeLoop rest with
        | none => rw [hv, hr] at hm; simp at hm
        | some out2 =>
          rw [hv, hr] at hm
          simp only [Option.some.injEq] at hm
          subst hm
          have hlen2 := ih rest (by simp at hlen ⊢; omega) out2 hr
          simp only [List.length_append, List.length_cons, byte3, List.length_nil, hlen2]
          omega

set_option maxRecDepth 8000 in
/-- C9 (counterexample): the claim as stated is false.  The input AA=A
(bytes 65 65 61 65) is made only of alphabet and pad bytes, so decoding
succeeds, but its trailing-= count is 0 while the decoder subtracts one
byte for the 61 in the second-to-last position: the output has length 2,
not the chunk-decoded length 3 reduced by 0 trailing pads. -/
theorem base64_decode_length_cex :
    aml_pool_base64_decode [65, 65, 61, 65] = some [0, 0] ∧
    trailingEqCount [65, 65, 61, 65] = 0 ∧
    ¬((aml_pool_base64_decode [65, 65, 61, 65]).map List.length =
        some (3 * ((([65, 65, 61, 65] : List Nat).length + 3) / 4) -
          trailingEqCount [65, 65, 61, 65])) := by decide

/-- C9 (amended): for every input string, aml_pool_base64_decode returns
the failure indication (none) exactly when some byte is neither in the
base64 alphabet nor the pad character 61; it never aborts, and on success
the output length is the chunk-decoded length 3 * ceil(len / 4) reduced by
one byte when the last character is a pad and by one more when the
second-to-last character is a pad (for canonical base64 this equals the
trailing-pad rule; the counterexample forces the positional reading). -/
theorem base64_decode_error_and_length :
    ∀ (bs : List Nat),
      (aml_pool_base64_decode bs = none ↔ ∃ c ∈ bs, ¬(c ∈ b64Table ∨ c = 61)) ∧
      (∀ out, aml_pool_base64_decode bs = some out →
        out.length = 3 * ((bs.length + 3) / 4) - decPad bs) := by
  intro bs
  by_cases hb : bs.length = 0
  · have hnil : bs = [] := List.length_eq_zero.mp hb
    subst hnil
    constructor
    · simp [aml_pool_base64_decode]
    · intro out hout
      simp [aml_pool_base64_decode] at hout
      subst hout
      rfl
  · constructor
    · unfold aml_pool_base64_decode
      rw [if_neg hb]
      cases hl : decodeLoop bs with
      | none =>
        constructor
        · intro _
          obtain ⟨c, hc1, hc2⟩ := (loop_none_iff bs.length bs le_rfl).mp hl
          exact ⟨c, hc1, (charVal_none_iff c).mp hc2⟩
        · intro _; rfl
      | some out =>
        constructor
        · intro hcontra; simp at hcontra
        · rintro ⟨c, hc1, hc2⟩
          have hn := (loop_none_iff bs.length bs le_rfl).mpr
            ⟨c, hc1, (charVal_none_iff c).mpr hc2⟩
          rw [hn] at hl
          exact absurd hl (by simp)
    · intro out hout
      unfold aml_pool_base64_decode at hout
      rw [if_neg hb] at hout
      cases hl : decodeLoop bs with
      | none => rw [hl] at hout; simp at hout
      | some out2 =>
        rw [hl] at hout
        simp only [Option.some.injEq] at hout
        subst hout
        have hlen2 := loop_length bs.length bs le_rfl out2 hl
        simp only [List.length_take, hlen2]
        omega

set_option maxRecDepth 8000 in
/-- C9 (witness): decoding QQ== (bytes 81 81 61 61) succeeds with output
[65] and the amended length rule gives 3 - 2 = 1. -/
theorem base64_decode_error_and_length_witness :
    ([65] : List Nat).length =
      3 * ((([81, 81, 61, 61] : List Nat).length + 3) / 4) - decPad [81, 81, 61, 61] :=
  (base64_decode_error_and_length [81, 81, 61, 61]).2 [65] (by decide)

end Aml
